import Mathlib

/-!
Verification of the cobib entry-acquisition and database-mutation pipeline.

This file gives a shallow embedding of the core data model and operations of
the repository: the Entry class of crema/parser.py with its field setters,
matching predicate and YAML converters, the DOI pattern matching and
PDF-to-DOI extraction, the AddCommand pipeline of cobib/commands/add.py, and
the commit-log scan of the UndoCommand in src/cobib/commands/undo.py.
Python strings are modelled as Lean String values (with character lists where
the code manipulates characters), ordered dictionaries as association lists,
and fallible code returns Option or a dedicated outcome type.
-/

/-- One bibliography entry: a label and an ordered field mapping, as in the
Entry class of crema/parser.py (self.label and self.data). -/
structure CEntry where
  label : String
  data : List (String × String)
deriving DecidableEq

/-- Assignment d[k] = v on an ordered Python dict: an existing key keeps its
position and gets the new value, a new key is appended at the end. -/
def assocSet (d : List (String × String)) (k v : String) : List (String × String) :=
  if (d.map Prod.fst).contains k then
    d.map (fun kv => if kv.1 = k then (k, v) else kv)
  else
    d ++ [(k, v)]

/-- Entry.set_label from crema/parser.py: replaces the label attribute and
mirrors it into the ID field of the data mapping. -/
def CEntry.set_label (e : CEntry) (label : String) : CEntry :=
  ⟨label, assocSet e.data "ID" label⟩

/-- Entry.set_file from crema/parser.py: stores os.path.abspath of the given
path in the file field.  The abspath resolution depends on the process
working directory, so it is passed in as a function parameter. -/
def CEntry.set_file (abspath : String → String) (e : CEntry) (file : String) : CEntry :=
  ⟨e.label, assocSet e.data "file" (abspath file)⟩

/-- Python str.strip(chars) on a character list: removes characters belonging
to cset from both ends. -/
def pyStripL (cset : List Char) (cs : List Char) : List Char :=
  ((cs.dropWhile (· ∈ cset)).reverse.dropWhile (· ∈ cset)).reverse

/-- The value stored by Entry.set_tags from crema/parser.py, at the level of
character lists: for each tag, tag.strip(chr 43) followed by a comma and a
blank, all concatenated, and the result stripped of commas and blanks at both
ends. -/
def set_tags_chars (tags : List String) : List Char :=
  pyStripL [',', ' ']
    (List.flatten (tags.map (fun tag => pyStripL ['+'] tag.toList ++ [',', ' '])))

/-- The value stored by Entry.set_tags from crema/parser.py. -/
def set_tags_value (tags : List String) : String :=
  String.mk (set_tags_chars tags)

/-- Entry.set_tags from crema/parser.py: stores the computed tags value in the
tags field. -/
def CEntry.set_tags (e : CEntry) (tags : List String) : CEntry :=
  ⟨e.label, assocSet e.data "tags" (set_tags_value tags)⟩

/-- The whitespace characters stripped by Python str.strip() with no
argument. -/
def pyWhitespace : List Char := [' ', '\t', '\n', '\r', '\x0b', '\x0c']

/-- Stated from the claim wording for comparison with set_tags_value: the
comma-with-space joined sequence of the whitespace-trimmed tokens with
leading plus characters stripped. -/
def set_tags_claimed (tags : List String) : String :=
  String.intercalate ", "
    (tags.map (fun tag => String.mk (pyStripL pyWhitespace (tag.toList.dropWhile (· = '+')))))

/-- Whether the first list occurs as a prefix of the second. -/
def prefixAt : List Char → List Char → Bool
  | [], _ => true
  | _ :: _, [] => false
  | a :: as, b :: bs => a = b && prefixAt as bs

/-- Python substring containment (needle in hay) on character lists. -/
def subList : List Char → List Char → Bool
  | n, [] => n.isEmpty
  | n, c :: t => prefixAt n (c :: t) || subList n t

/-- Python substring containment on strings: needle in hay. -/
def strIn (needle hay : String) : Bool :=
  subList needle.toList hay.toList

/-- One iteration of the filter loop in Entry.matches from crema/parser.py.
When the field is absent from the data mapping the loop appends the negated
flag, but then still enters the loop over the substring values, where
self.data of the absent key raises a KeyError; this is modelled by none.
When the field is present, each value contributes flag or its negation per
containment. -/
def elemMatch (e : CEntry) (field : String) (flag : Bool) (vals : List String) :
    Option (List Bool) :=
  match e.data.lookup field, vals with
  | none, [] => some [!flag]
  | none, _ :: _ => none
  | some s, vs => some (vs.map (fun v => if subList v.toList s.toList then flag else !flag))

/-- The match_list accumulated by Entry.matches, with none propagating the
KeyError raised on an absent field with a nonempty value list. -/
def matchList (e : CEntry) : List ((String × Bool) × List String) → Option (List Bool)
  | [] => some []
  | kv :: rest =>
    match elemMatch e kv.1.1 kv.1.2 kv.2, matchList e rest with
    | some ms, some rs => some (ms ++ rs)
    | _, _ => none

/-- Entry.matches from crema/parser.py: combines the match list with any()
for OR and all() for AND; none models the KeyError crash. -/
def CEntry.matches (e : CEntry) (fil : List ((String × Bool) × List String)) (useOr : Bool) :
    Option Bool :=
  (matchList e fil).map (fun ms => if useOr then ms.any (fun m => m) else ms.all (fun m => m))

/-- Per-element contribution as the claim describes it: an absent field
contributes the negated flag, a present field contributes one entry per
substring according to containment and the flag. -/
def elemMatchClaimed (e : CEntry) (kv : (String × Bool) × List String) : List Bool :=
  match e.data.lookup kv.1.1 with
  | none => [!kv.1.2]
  | some s => kv.2.map (fun v => if subList v.toList s.toList then kv.1.2 else !kv.1.2)

/-- One commit of the git log as consumed by UndoCommand.execute: the sha and
the whitespace-split message tokens of the oneline subject. -/
structure Commit where
  sha : String
  message : List String
deriving DecidableEq

/-- The eligibility test on line 89 of src/cobib/commands/undo.py: the force
flag was given, or the commit is an auto-commit whose last message token is
not InitCommand. -/
def eligibleCommit (force : Bool) (c : Commit) : Bool :=
  force || (c.message.headD "" == "Auto-commit:" && !(c.message.getLastD "" == "InitCommand"))

/-- The newest-first log scan of UndoCommand.execute: commits whose message
starts with Undo record their target sha into the undone set and are never
candidates themselves; commits already in the undone set are skipped; the
first eligible commit is returned and scanning stops. -/
def scanUndo (force : Bool) : List String → List Commit → Option String
  | _, [] => none
  | undone, c :: rest =>
    if c.message.headD "" = "Undo" then
      scanUndo force (c.message.getLastD "" :: undone) rest
    else if c.sha ∈ undone then
      scanUndo force undone rest
    else if eligibleCommit force c then
      some c.sha
    else
      scanUndo force undone rest

/-- Result of one UndoCommand invocation: either some commit was reverted or
the for-loop completed without a break. -/
inductive UndoOutcome where
  | reverted (sha : String)
  | nothingToUndo
deriving DecidableEq

/-- UndoCommand.execute after the git log was obtained: scan with an empty
undone set; no eligible commit means the could-not-find message and
sys.exit(1). -/
def undoCommand (force : Bool) (log : List Commit) : UndoOutcome :=
  match scanUndo force [] log with
  | some sha => .reverted sha
  | none => .nothingToUndo

/-- Whether the invocation terminates with a failure exit status: only the
nothing-to-undo branch calls sys.exit(1). -/
def undoExitFailure : UndoOutcome → Bool
  | .nothingToUndo => true
  | .reverted _ => false

/-- The commit created by a successful undo of the given sha: git commit with
message Undo followed by the sha, so its oneline subject splits into these
two tokens. -/
def undoCommitFor (newSha sha : String) : Commit :=
  ⟨newSha, ["Undo", sha]⟩

/-- The target shas recorded from Undo commits of a log segment, in order. -/
def undoTargets : List Commit → List String
  | [] => []
  | c :: rest =>
    if c.message.headD "" = "Undo" then
      c.message.getLastD "" :: undoTargets rest
    else
      undoTargets rest

/-- Modelled from the spec: cobib.database.Database is not under src; section
4.3 step 5 of the spec describes its update as inserting new labels and fully
replacing the Entry of an existing label, so it is an ordered-dict update
that does not mutate the incoming batch. -/
def dbUpdate (db batch : List (String × CEntry)) : List (String × CEntry) :=
  batch.foldl
    (fun acc kv =>
      if (acc.map Prod.fst).contains kv.1 then
        acc.map (fun kv2 => if kv2.1 = kv.1 then (kv2.1, kv.2) else kv2)
      else
        acc ++ [kv])
    db

/-- The entry built by the manual-creation branch of AddCommand.execute: a
dict holding the ID and ENTRYTYPE keys in that order. -/
def manualEntry (defaultType : String) (label : String) : CEntry :=
  ⟨label, [("ID", label), ("ENTRYTYPE", defaultType)]⟩

/-- Result of the AddCommand pipeline slice: the merged batch, the
edit-entries flag from the manual branch, whether the interactive edit ran,
whether the already-exists warning was logged, and the updated database. -/
structure AddResult where
  batch : List (String × CEntry)
  editEntries : Bool
  editTriggered : Bool
  warned : Bool
  db : List (String × CEntry)
deriving DecidableEq

/-- Outcome of AddCommand.execute: normal completion, a failed assert
statement, or the abort when neither an input nor a label was given. -/
inductive AddStep (α : Type) where
  | ok (a : α)
  | assertionFailure
  | abortNoInput
deriving DecidableEq

/-- Lines 78 to 115 of src/cobib/commands/add.py, after the batch was
obtained.  The label override asserts a single-entry batch; the statement
value.set_label = largs.label is an attribute assignment that shadows the
set_label method on the instance and leaves both the label attribute and the
data mapping unchanged, after which the batch is re-keyed under the new
label.  The file and tag overrides likewise assert and assign attributes.
The edit branch tests largs.label not in new_entries against the re-keyed
batch. -/
def addRest (db : List (String × CEntry)) (batch0 : List (String × CEntry))
    (editEntries : Bool) (label : Option String) (file : Option (List String))
    (tags : List String) : AddStep AddResult :=
  let labelStep : AddStep (List (String × CEntry)) :=
    match label with
    | none => AddStep.ok batch0
    | some l =>
      if batch0.length = 1 then AddStep.ok (batch0.map (fun kv => (l, kv.2)))
      else AddStep.assertionFailure
  match labelStep with
  | .assertionFailure => .assertionFailure
  | .abortNoInput => .abortNoInput
  | .ok batch1 =>
    if file.isSome ∧ batch1.length ≠ 1 then .assertionFailure
    else if tags ≠ [] ∧ batch1.length ≠ 1 then .assertionFailure
    else
      let db2 := dbUpdate db batch1
      let inBatch := (batch1.map Prod.fst).contains (label.getD "")
      .ok ⟨batch1, editEntries, editEntries && inBatch, editEntries && !inBatch, db2⟩

/-- AddCommand.execute from argument parsing onwards: a selected source
parser yields the batch; otherwise a manual label synthesizes a single-entry
batch flagged for interactive edit; with neither, the command logs an error
and returns. -/
def addPipeline (defaultType : String) (db : List (String × CEntry))
    (parsed : Option (List (String × CEntry))) (label : Option String)
    (file : Option (List String)) (tags : List String) : AddStep AddResult :=
  match parsed with
  | some batch0 => addRest db batch0 false label file tags
  | none =>
    match label with
    | some l => addRest db [(l, manualEntry defaultType l)] true (some l) file tags
    | none => .abortNoInput

/-- A word character for the regex word-boundary assertion. -/
def isWordChar (c : Char) : Bool :=
  c.isAlphanum || c = '_'

/-- A character admitted by the suffix part of DOI_REGEX: not whitespace and
not a double quote, ampersand or apostrophe. -/
def doiBodyChar (c : Char) : Bool :=
  !c.isWhitespace && !(c = '"') && !(c = '&') && !(c = Char.ofNat 39)

/-- Greedy backtracking for the trailing word boundary of DOI_REGEX: given
the reversed run of suffix characters and the character following the run,
keep the longest nonempty prefix of the run whose cut point is a word
boundary.  Dropping the last character makes it the following character of
the shorter candidate. -/
def boundaryCutRev : Option Char → List Char → Option (List Char)
  | _, [] => none
  | next, c :: rest =>
    if (isWordChar c ≠ match next with | none => false | some d => isWordChar d) then
      some (c :: rest)
    else
      boundaryCutRev (some c) rest

/-- Matching DOI_REGEX at the start of a character list, returning the
matched characters and the remainder: the literal 10 and a dot, one or more
alphanumeric registrant characters, a slash, and one or more suffix
characters ending at a word boundary. -/
def matchDoiAt : List Char → Option (List Char × List Char)
  | '1' :: '0' :: '.' :: rest =>
    let alnum := rest.takeWhile Char.isAlphanum
    let rest2 := rest.dropWhile Char.isAlphanum
    if alnum.isEmpty then none
    else
      match rest2 with
      | '/' :: rest3 =>
        let run := rest3.takeWhile doiBodyChar
        let rest4 := rest3.dropWhile doiBodyChar
        match boundaryCutRev rest4.head? run.reverse with
        | none => none
        | some keptRev =>
          let kept := keptRev.reverse
          some ('1' :: '0' :: '.' :: (alnum ++ '/' :: kept), run.drop kept.length ++ rest4)
      | _ => none
  | _ => none

/-- re.match(DOI_REGEX, doi) as used by the assert in Entry.from_doi: the
pattern must match at the start of the identifier. -/
def doiMatchStart (s : String) : Bool :=
  (matchDoiAt s.toList).isSome

/-- re.findall(DOI_REGEX, text): scan left to right, record each match and
continue after it, advance one character on failure.  The fuel is the length
of the text, enough because every step consumes at least one character. -/
def doiFindAllAux : Nat → List Char → List String
  | 0, _ => []
  | _ + 1, [] => []
  | fuel + 1, c :: rest =>
    match matchDoiAt (c :: rest) with
    | some (m, after) => String.mk m :: doiFindAllAux fuel after
    | none => doiFindAllAux fuel rest

/-- All DOI-pattern substrings of the text, in text order. -/
def doiFindAll (text : String) : List String :=
  doiFindAllAux text.toList.length text.toList

/-- Outcome of a parser invocation: a batch of entries, a failed assert
statement, an unhandled ValueError, or the dedicated parse-error result the
spec postulates (no code in the repository produces it). -/
inductive ParseOutcome where
  | entries (bib : List (String × CEntry))
  | assertionFailure
  | valueError
  | parseError
deriving DecidableEq

/-- Entry.from_doi from crema/parser.py: assert the DOI pattern matches at
the start of the identifier, then fetch the bibtex source and parse it.  The
network fetch and bibtex parsing are external collaborators, passed in as a
function from the identifier to the resulting batch. -/
def from_doi (fetch : String → List (String × CEntry)) (doi : String) : ParseOutcome :=
  if doiMatchStart doi then .entries (fetch doi) else .assertionFailure

/-- Python max(iter, key): the first element of the iteration order whose key
is maximal; an empty iteration raises a ValueError, modelled by none. -/
def pyMax (key : String → Nat) : List String → Option String
  | [] => none
  | x :: xs => some (xs.foldl (fun best y => if key y > key best then y else best) x)

/-- The most_common helper of Entry.from_pdf: max(set(lst), key=lst.count).
The iteration order of the Python set of strings is hash-dependent, so it is
passed in as the order parameter; isSetOrder characterizes the valid
orders. -/
def most_common (order lst : List String) : Option String :=
  pyMax (fun x => lst.count x) order

/-- The deduplication of a list keeping first occurrences, in list order. -/
def firstDedup (l : List String) : List String :=
  l.foldl (fun acc x => if x ∈ acc then acc else acc ++ [x]) []

/-- An order is a valid iteration order of set(lst) when it enumerates each
distinct element of lst exactly once. -/
def isSetOrder (lst order : List String) : Prop :=
  List.Perm order (firstDedup lst)

instance (lst order : List String) : Decidable (isSetOrder lst order) :=
  List.decidablePerm order (firstDedup lst)

/-- Stated from the claim wording for comparison with most_common: the most
frequently occurring match with ties broken by the first-encountered maximum
under a stable frequency count. -/
def claimedMostCommon (lst : List String) : Option String :=
  pyMax (fun x => lst.count x) (firstDedup lst)

/-- Entry.from_pdf from crema/parser.py: extract the text (given here
directly), collect all DOI-pattern substrings, pick the most common one,
delegate to Entry.from_doi, and overwrite the file field of every resulting
entry with the path of the pdf. -/
def from_pdf (fetch : String → List (String × CEntry)) (abspath : String → String)
    (order : List String) (text path : String) : ParseOutcome :=
  match most_common order (doiFindAll text) with
  | none => .valueError
  | some doi =>
    match from_doi fetch doi with
    | .entries bib => .entries (bib.map (fun kv => (kv.1, CEntry.set_file abspath kv.2 path)))
    | other => other

/-- Whether a line starts with two blanks, the indentation of a field line in
the emitted YAML block. -/
def twoSpace : List Char → Bool
  | c1 :: c2 :: _ => c1 = ' ' && c2 = ' '
  | _ => false

/-- Split a line at the first colon-blank separator. -/
def splitCS : List Char → Option (List Char × List Char)
  | [] => none
  | c :: rest =>
    if c = ':' ∧ rest.head? = some ' ' then some ([], rest.tail)
    else (splitCS rest).map (fun p => (c :: p.1, p.2))

/-- Read an indented field line as a key-value pair. -/
def parseField (l : List Char) : Option (String × String) :=
  if twoSpace l then
    (splitCS (l.drop 2)).map (fun p => (String.mk p.1, String.mk p.2))
  else none

/-- Read an unindented line ending in a colon as the label opening a
document. -/
def lineLabel (l : List Char) : Option String :=
  if l.getLast? = some ':' then some (String.mk l.dropLast) else none

/-- Parse a stream of YAML lines into documents of a label and its ordered
field mapping, accumulating the current document. -/
def parseDocs (acc : Option (String × List (String × String))) :
    List (List Char) → List (String × List (String × String))
  | [] =>
    match acc with
    | none => []
    | some d => [d]
  | line :: rest =>
    if line = ['-', '-', '-'] ∨ line = ['.', '.', '.'] ∨ line = [] then
      parseDocs acc rest
    else
      match parseField line with
      | some kv =>
        match acc with
        | some d => parseDocs (some (d.1, d.2 ++ [kv])) rest
        | none => parseDocs none rest
      | none =>
        match lineLabel line with
        | some l =>
          match acc with
          | none => parseDocs (some (l, [])) rest
          | some d => d :: parseDocs (some (l, [])) rest
        | none => parseDocs acc rest

/-- The field line emitted for one key-value pair: two blanks, the key, a
colon and a blank, the value. -/
def fieldLine (kv : String × String) : List Char :=
  ' ' :: ' ' :: (kv.1.toList ++ ':' :: ' ' :: kv.2.toList)

/-- Entry.to_yaml from crema/parser.py: the single explicit-document YAML
block for the mapping from the label to the field mapping, as a list of
lines.  The exact lines are pinned by test_add_new_entry in
tests/commands/test_add.py: the document start, the label with a colon, one
indented line per field, and the document end. -/
def to_yaml (e : CEntry) : List (List Char) :=
  ['-', '-', '-'] :: (e.label.toList ++ [':']) :: e.data.map fieldLine ++ [['.', '.', '.']]

/-- Entry.from_yaml from crema/parser.py: load all documents of the stream
and build the ordered bibliography mapping each label to an Entry carrying
that label and the fields of the document. -/
def from_yaml (lines : List (List Char)) : List (String × CEntry) :=
  (parseDocs none lines).map (fun d => (d.1, ⟨d.1, d.2⟩))



/-! Helper lemmas. -/

theorem dropWhile_append_all {p : Char → Bool} (pre l : List Char) (h : ∀ c ∈ pre, p c = true) :
    (pre ++ l).dropWhile p = l.dropWhile p := by
  induction pre with
  | nil => rfl
  | cons c cs ih =>
    rw [List.cons_append, List.dropWhile_cons, if_pos (h c (List.mem_cons_self c cs))]
    exact ih (fun d hd => h d (List.mem_cons_of_mem c hd))

theorem dropWhile_head_false {p : Char → Bool} {l : List Char} {c : Char}
    (h : l.head? = some c) (hc : p c = false) : l.dropWhile p = l := by
  cases l with
  | nil => simp at h
  | cons a t =>
    rw [List.head?_cons, Option.some.injEq] at h
    rw [List.dropWhile_cons, h, hc]
    simp

theorem elemMatch_none_iff (e : CEntry) (field : String) (flag : Bool) (vals : List String) :
    elemMatch e field flag vals = none ↔ e.data.lookup field = none ∧ vals ≠ [] := by
  unfold elemMatch
  split <;> simp_all [-List.lookup_eq_none_iff]

theorem elemMatch_eq_claimed (e : CEntry) (kv : (String × Bool) × List String)
    (h : e.data.lookup kv.1.1 = none → kv.2 = []) :
    elemMatch e kv.1.1 kv.1.2 kv.2 = some (elemMatchClaimed e kv) := by
  unfold elemMatch elemMatchClaimed
  split <;> simp_all [-List.lookup_eq_none_iff]

theorem matchList_none_iff (e : CEntry) (fil : List ((String × Bool) × List String)) :
    matchList e fil = none ↔ ∃ kv ∈ fil, e.data.lookup kv.1.1 = none ∧ kv.2 ≠ [] := by
  induction fil with
  | nil => simp [matchList]
  | cons kv rest ih =>
    rw [matchList]
    constructor
    · intro h
      cases helem : elemMatch e kv.1.1 kv.1.2 kv.2 with
      | none =>
        exact ⟨kv, List.mem_cons_self _ _, (elemMatch_none_iff e kv.1.1 kv.1.2 kv.2).mp helem⟩
      | some ms =>
        cases hrest : matchList e rest with
        | none =>
          obtain ⟨kv2, hmem, hkv2⟩ := ih.mp hrest
          exact ⟨kv2, List.mem_cons_of_mem _ hmem, hkv2⟩
        | some rs => rw [helem, hrest] at h; simp at h
    · rintro ⟨kv2, hmem, hkv2⟩
      rcases List.mem_cons.mp hmem with heq | hmem2
      · subst heq
        rw [(elemMatch_none_iff e kv2.1.1 kv2.1.2 kv2.2).mpr hkv2]
      · rw [ih.mpr ⟨kv2, hmem2, hkv2⟩]
        cases elemMatch e kv.1.1 kv.1.2 kv.2 <;> rfl

theorem matchList_some (e : CEntry) (fil : List ((String × Bool) × List String))
    (h : ∀ kv ∈ fil, e.data.lookup kv.1.1 = none → kv.2 = []) :
    matchList e fil = some (List.flatten (fil.map (elemMatchClaimed e))) := by
  induction fil with
  | nil => rfl
  | cons kv rest ih =>
    rw [matchList, elemMatch_eq_claimed e kv (h kv (List.mem_cons_self _ _)),
      ih (fun kv2 hkv2 => h kv2 (List.mem_cons_of_mem _ hkv2))]
    rfl

theorem scanUndo_safe (force : Bool) (log : List Commit) :
    ∀ (undone : List String) (sha : String),
      scanUndo force undone log = some sha →
      ∃ pre c post, log = pre ++ c :: post ∧ c.sha = sha ∧
        c.message.headD "" ≠ "Undo" ∧ sha ∉ undone ∧ sha ∉ undoTargets pre := by
  induction log with
  | nil =>
    intro undone sha h
    simp [scanUndo] at h
  | cons c rest ih =>
    intro undone sha h
    rw [scanUndo] at h
    by_cases h1 : c.message.headD "" = "Undo"
    · rw [if_pos h1] at h
      obtain ⟨pre, d, post, hlog, hsha, hd, hnot, htar⟩ := ih _ _ h
      refine ⟨c :: pre, d, post, by rw [hlog, List.cons_append], hsha, hd, ?_, ?_⟩
      · exact fun hc => hnot (List.mem_cons_of_mem _ hc)
      · rw [undoTargets, if_pos h1]
        intro hc
        rcases List.mem_cons.mp hc with h2 | h2
        · exact hnot (h2 ▸ List.mem_cons_self _ _)
        · exact htar h2
    · rw [if_neg h1] at h
      by_cases h2 : c.sha ∈ undone
      · rw [if_pos h2] at h
        obtain ⟨pre, d, post, hlog, hsha, hd, hnot, htar⟩ := ih _ _ h
        exact ⟨c :: pre, d, post, by rw [hlog, List.cons_append], hsha, hd, hnot,
          by rw [undoTargets, if_neg h1]; exact htar⟩
      · rw [if_neg h2] at h
        by_cases h3 : eligibleCommit force c = true
        · rw [if_pos h3] at h
          rw [Option.some.injEq] at h
          exact ⟨[], c, rest, rfl, h, h1, h ▸ h2, by simp [undoTargets]⟩
        · rw [if_neg h3] at h
          obtain ⟨pre, d, post, hlog, hsha, hd, hnot, htar⟩ := ih _ _ h
          exact ⟨c :: pre, d, post, by rw [hlog, List.cons_append], hsha, hd, hnot,
            by rw [undoTargets, if_neg h1]; exact htar⟩

/-! Claim theorems. -/

/-- C10: the matching predicate on an empty filter mapping is asymmetric in
the combination flag: with OR combination it returns False because any() of
an empty list is False, with AND combination it returns True because all()
of an empty list is True, and it does not crash. -/
theorem matches_empty_filter (e : CEntry) :
    CEntry.matches e [] true = some false ∧ CEntry.matches e [] false = some true := by
  exact ⟨rfl, rfl⟩

/-- C5 counterexample: on an Entry without an author field and a filter
mapping the author key with the include flag to one substring, the matching
predicate does not return a boolean: the absent-field branch appends the
negated flag but falls through into the loop over the substrings, where
indexing the data mapping with the absent key raises a KeyError, modelled by
none. -/
theorem matches_absent_field_crash :
    CEntry.matches ⟨"x", [("ID", "x")]⟩ [(("author", true), ["Einstein"])] false = none ∧
    CEntry.matches ⟨"x", [("ID", "x")]⟩ [(("author", true), ["Einstein"])] false ≠ some true ∧
    CEntry.matches ⟨"x", [("ID", "x")]⟩ [(("author", true), ["Einstein"])] false ≠ some false := by
  exact ⟨rfl, by decide, by decide⟩

/-- C5 amended: the matching predicate crashes with a KeyError exactly when
some filter key names a field absent from the data mapping and carries a
nonempty substring list; when no such filter element exists it returns a
boolean combining, with any() for OR and all() for AND, the per-element
contributions: an absent field (necessarily with an empty substring list)
contributes the negated flag, a present field contributes one match flag per
substring according to simple containment. -/
theorem matches_characterization (e : CEntry) (fil : List ((String × Bool) × List String))
    (useOr : Bool) :
    (CEntry.matches e fil useOr = none ↔
      ∃ kv ∈ fil, e.data.lookup kv.1.1 = none ∧ kv.2 ≠ []) ∧
    ((∀ kv ∈ fil, e.data.lookup kv.1.1 = none → kv.2 = []) →
      CEntry.matches e fil useOr =
        some (if useOr then (List.flatten (fil.map (elemMatchClaimed e))).any (fun m => m)
              else (List.flatten (fil.map (elemMatchClaimed e))).all (fun m => m))) := by
  constructor
  · rw [CEntry.matches]
    cases hm : matchList e fil with
    | none => simpa [hm] using (matchList_none_iff e fil).mp hm
    | some ms =>
      constructor
      · intro h
        simp at h
      · intro h
        rw [(matchList_none_iff e fil).mpr h] at hm
        simp at hm
  · intro h
    rw [CEntry.matches, matchList_some e fil h]
    rfl

/-- C5 amended, witness: the characterization applied to a filter whose only
field is present in the Entry. -/
theorem matches_characterization_witness :
    CEntry.matches ⟨"x", [("author", "A Einstein")]⟩ [(("author", true), ["Einstein"])] false =
      some (if false then
              (List.flatten ([(("author", true), ["Einstein"])].map
                (elemMatchClaimed ⟨"x", [("author", "A Einstein")]⟩))).any (fun m => m)
            else
              (List.flatten ([(("author", true), ["Einstein"])].map
                (elemMatchClaimed ⟨"x", [("author", "A Einstein")]⟩))).all (fun m => m)) :=
  (matches_characterization ⟨"x", [("author", "A Einstein")]⟩
    [(("author", true), ["Einstein"])] false).2 (by decide)

/-- C2: on the newest-first log of c3 and c2 from AddCommand and c1 from
InitCommand, an Undo invocation without force reverts exactly c3, and a
second invocation on the log extended by the commit recording Undo c3
reverts c2 and never c1; a non-undo, not-yet-undone commit is selected
exactly when it is eligible, and without force eligibility holds exactly for
an auto-commit whose producer token is not InitCommand, while force makes
every such commit eligible. -/
theorem undo_force_init_scenario :
    undoCommand false [⟨"c3", ["Auto-commit:", "AddCommand"]⟩,
        ⟨"c2", ["Auto-commit:", "AddCommand"]⟩, ⟨"c1", ["Auto-commit:", "InitCommand"]⟩] =
      .reverted "c3" ∧
    undoCommand false (undoCommitFor "u3" "c3" :: [⟨"c3", ["Auto-commit:", "AddCommand"]⟩,
        ⟨"c2", ["Auto-commit:", "AddCommand"]⟩, ⟨"c1", ["Auto-commit:", "InitCommand"]⟩]) =
      .reverted "c2" ∧
    (∀ (force : Bool) (undone : List String) (c : Commit) (rest : List Commit),
      c.message.headD "" ≠ "Undo" → c.sha ∉ undone →
      scanUndo force undone (c :: rest) =
        if eligibleCommit force c then some c.sha else scanUndo force undone rest) ∧
    (∀ c : Commit, eligibleCommit false c = true ↔
      (c.message.headD "" = "Auto-commit:" ∧ c.message.getLastD "" ≠ "InitCommand")) := by
  refine ⟨by decide, by decide, ?_, ?_⟩
  · intro force undone c rest h1 h2
    rw [scanUndo, if_neg h1, if_neg h2]
  · intro c
    simp [eligibleCommit]

theorem undo_force_init_scenario_witness :
    scanUndo false [] [⟨"x1", ["Auto-commit:", "AddCommand"]⟩] = some "x1" := by
  rw [undo_force_init_scenario.2.2.1 false [] ⟨"x1", ["Auto-commit:", "AddCommand"]⟩ []
    (by decide) (by decide)]
  decide

/-- C3: whichever commit the scan selects for reversal lies in the log, is
not itself an Undo record, and its sha is neither in the initial undone set
nor among the Undo targets recorded earlier in the scan; consequently on the
log of c2 recording Undo c1 and c1 from AddCommand, a fresh Undo finds no
eligible commit and terminates with a failure exit status. -/
theorem undo_skip_set_scenario :
    (∀ (force : Bool) (undone : List String) (log : List Commit) (sha : String),
      scanUndo force undone log = some sha →
      ∃ pre c post, log = pre ++ c :: post ∧ c.sha = sha ∧
        c.message.headD "" ≠ "Undo" ∧ sha ∉ undone ∧ sha ∉ undoTargets pre) ∧
    undoCommand false [⟨"c2", ["Undo", "c1"]⟩, ⟨"c1", ["Auto-commit:", "AddCommand"]⟩] =
      .nothingToUndo ∧
    undoExitFailure (undoCommand false
      [⟨"c2", ["Undo", "c1"]⟩, ⟨"c1", ["Auto-commit:", "AddCommand"]⟩]) = true := by
  exact ⟨fun force undone log sha h => scanUndo_safe force log undone sha h, by decide, by decide⟩

theorem undo_skip_set_scenario_witness :
    ∃ pre c post,
      ([⟨"x1", ["Auto-commit:", "AddCommand"]⟩] : List Commit) = pre ++ c :: post ∧
      c.sha = "x1" ∧ c.message.headD "" ≠ "Undo" ∧ "x1" ∉ ([] : List String) ∧
      "x1" ∉ undoTargets pre :=
  undo_skip_set_scenario.1 false [] [⟨"x1", ["Auto-commit:", "AddCommand"]⟩] "x1" (by decide)

/-- C1: evaluation of the label-override step of AddCommand.execute at the
failing input of a single-entry parsed batch with a manual label.  The
statement value.set_label = largs.label on line 82 of
src/cobib/commands/add.py is an attribute assignment, not a call of
Entry.set_label, so the sole entry keeps its old label attribute and its old
ID field while only the batch key changes; the second conjunct shows what
Entry.set_label from crema/parser.py would have produced; a batch of more
than one entry still fails the assert on line 79. -/
theorem add_label_override_bug :
    addPipeline "article" []
        (some [("example_multi_file_entry", ⟨"example_multi_file_entry",
          [("ID", "example_multi_file_entry"), ("ENTRYTYPE", "misc")]⟩)])
        (some "dummy_label") none []
      = .ok ⟨[("dummy_label", ⟨"example_multi_file_entry",
              [("ID", "example_multi_file_entry"), ("ENTRYTYPE", "misc")]⟩)],
             false, false, false,
             [("dummy_label", ⟨"example_multi_file_entry",
              [("ID", "example_multi_file_entry"), ("ENTRYTYPE", "misc")]⟩)]⟩ ∧
    CEntry.set_label ⟨"example_multi_file_entry",
        [("ID", "example_multi_file_entry"), ("ENTRYTYPE", "misc")]⟩ "dummy_label"
      = ⟨"dummy_label", [("ID", "dummy_label"), ("ENTRYTYPE", "misc")]⟩ ∧
    addPipeline "article" []
        (some [("a", ⟨"a", [("ID", "a")]⟩), ("b", ⟨"b", [("ID", "b")]⟩)])
        (some "dummy_label") none []
      = .assertionFailure := by
  refine ⟨by decide, by decide, by decide⟩

/-- C6: the manual-creation branch of AddCommand.execute builds exactly one
new entry holding only the ID and ENTRYTYPE fields and flags it for
interactive edit; but because the batch produced by this branch (and re-keyed
by the label override) always contains the manual label, the test
largs.label not in new_entries on line 101 is always false, so the
interactive edit is triggered and the already-exists warning is never
logged, even when the label pre-exists in the database, as in the second
conjunct. -/
theorem add_manual_entry_bug :
    (∀ (dt l : String) (db : List (String × CEntry)),
      addPipeline dt db none (some l) none [] =
        .ok ⟨[(l, manualEntry dt l)], true, true, false,
             dbUpdate db [(l, manualEntry dt l)]⟩) ∧
    addPipeline "article"
        [("einstein", ⟨"einstein",
          [("ID", "einstein"), ("ENTRYTYPE", "article"), ("author", "Albert Einstein")]⟩)]
        none (some "einstein") none []
      = .ok ⟨[("einstein", manualEntry "article" "einstein")], true, true, false,
             [("einstein", manualEntry "article" "einstein")]⟩ ∧
    (manualEntry "article" "einstein").data = [("ID", "einstein"), ("ENTRYTYPE", "article")] := by
  refine ⟨?_, by decide, by decide⟩
  intro dt l db
  simp [addPipeline, addRest]

theorem pyMax_spec (key : String → Nat) (x : String) (xs : List String) :
    ∃ m, pyMax key (x :: xs) = some m ∧ m ∈ x :: xs ∧ ∀ y ∈ x :: xs, key y ≤ key m := by
  induction xs generalizing x with
  | nil =>
    exact ⟨x, rfl, List.mem_cons_self _ _, by simp⟩
  | cons y ys ih =>
    obtain ⟨m, hm, hmem, hbound⟩ := ih (if key y > key x then y else x)
    refine ⟨m, ?_, ?_, ?_⟩
    · rw [pyMax] at hm ⊢
      rw [Option.some.injEq] at hm ⊢
      rw [List.foldl_cons]
      exact hm
    · rcases List.mem_cons.mp hmem with h | h
      · subst h
        by_cases hk : key y > key x
        · simp only [if_pos hk]
          exact List.mem_cons_of_mem _ (List.mem_cons_self _ _)
        · simp only [if_neg hk]
          exact List.mem_cons_self _ _
      · exact List.mem_cons_of_mem _ (List.mem_cons_of_mem _ h)
    · intro z hz
      have hstep : key z ≤ key m ∨ z = x ∨ z = y := by
        rcases List.mem_cons.mp hz with h | h
        · right; left; exact h
        · rcases List.mem_cons.mp h with h2 | h2
          · right; right; exact h2
          · left; exact hbound z (List.mem_cons_of_mem _ h2)
      have hite : key x ≤ key (if key y > key x then y else x) ∧
          key y ≤ key (if key y > key x then y else x) := by
        by_cases hk : key y > key x
        · rw [if_pos hk]
          exact ⟨Nat.le_of_lt hk, Nat.le_refl _⟩
        · rw [if_neg hk]
          exact ⟨Nat.le_refl _, Nat.le_of_not_lt hk⟩
      have hto : key (if key y > key x then y else x) ≤ key m :=
        hbound _ (List.mem_cons_self _ _)
      rcases hstep with h | h | h
      · exact h
      · exact h ▸ Nat.le_trans hite.1 hto
      · exact h ▸ Nat.le_trans hite.2 hto

theorem mem_foldl_dedup (l : List String) :
    ∀ (acc : List String) (x : String),
      (x ∈ l.foldl (fun acc y => if y ∈ acc then acc else acc ++ [y]) acc) ↔
        (x ∈ acc ∨ x ∈ l) := by
  induction l with
  | nil => simp
  | cons y ys ih =>
    intro acc x
    rw [List.foldl_cons, ih]
    by_cases hy : y ∈ acc
    · rw [if_pos hy]
      constructor
      · rintro (h | h)
        · exact Or.inl h
        · exact Or.inr (List.mem_cons_of_mem _ h)
      · rintro (h | h)
        · exact Or.inl h
        · rcases List.mem_cons.mp h with h2 | h2
          · exact Or.inl (h2 ▸ hy)
          · exact Or.inr h2
    · rw [if_neg hy]
      constructor
      · rintro (h | h)
        · rcases List.mem_append.mp h with h2 | h2
          · exact Or.inl h2
          · exact Or.inr (List.mem_cons.mpr (Or.inl (List.mem_singleton.mp h2)))
        · exact Or.inr (List.mem_cons_of_mem _ h)
      · rintro (h | h)
        · exact Or.inl (List.mem_append.mpr (Or.inl h))
        · rcases List.mem_cons.mp h with h2 | h2
          · exact Or.inl (List.mem_append.mpr (Or.inr (List.mem_singleton.mpr h2)))
          · exact Or.inr h2

theorem mem_firstDedup (l : List String) (x : String) : x ∈ firstDedup l ↔ x ∈ l := by
  rw [firstDedup, mem_foldl_dedup]
  simp

theorem lookup_assocSet (d : List (String × String)) (k v : String) :
    (assocSet d k v).lookup k = some v := by
  induction d with
  | nil => simp [assocSet, List.lookup]
  | cons hd tl ih =>
    by_cases hk : hd.1 = k
    · rw [assocSet]
      rw [if_pos (by simp [hk])]
      rw [List.map_cons, if_pos hk, List.lookup]
      simp
    · rw [assocSet]
      by_cases hc : ((hd :: tl).map Prod.fst).contains k
      · rw [if_pos hc]
        rw [List.map_cons, if_neg hk, List.lookup]
        have hne : (k == hd.1) = false := by
          simp
          exact fun h => hk h.symm
        rw [hne]
        have hc2 : (tl.map Prod.fst).contains k := by
          simp only [List.map_cons, List.contains_cons] at hc
          rcases Bool.or_eq_true_iff.mp hc with h | h
          · exact absurd (beq_iff_eq.mp h).symm hk
          · exact h
        rw [assocSet, if_pos hc2] at ih
        exact ih
      · rw [if_neg hc]
        rw [List.cons_append, List.lookup]
        have hne : (k == hd.1) = false := by
          simp
          exact fun h => hk h.symm
        rw [hne]
        have hc2 : ¬ (tl.map Prod.fst).contains k := by
          intro h
          exact hc (by simp only [List.map_cons, List.contains_cons, h, Bool.or_true])
        rw [assocSet, if_neg hc2] at ih
        exact ih

/-- C4 counterexample: the DOI parser given an identifier that does not
match the DOI pattern fails the assert on line 125 of crema/parser.py, an
AssertionError, and the PDF extraction on a text without any DOI-pattern
substring raises a ValueError from max() over the empty set of matches; in
neither case is the dedicated parse-error result produced, and indeed no
ParseError type exists anywhere in the repository. -/
theorem parser_failure_kind_cex :
    from_doi (fun _ => []) "not-a-doi" = .assertionFailure ∧
    from_doi (fun _ => []) "not-a-doi" ≠ .parseError ∧
    from_pdf (fun _ => []) (fun p => p) [] "There is no identifier here." "paper.pdf"
      = .valueError ∧
    from_pdf (fun _ => []) (fun p => p) [] "There is no identifier here." "paper.pdf"
      ≠ .parseError := by
  refine ⟨by decide, by decide, by decide, by decide⟩

/-- C4 amended: whenever the identifier fails the DOI pattern the DOI parser
aborts with an AssertionError, and whenever the pdf text holds no DOI
pattern substring the PDF extraction aborts with an unhandled ValueError;
the concrete pattern checks of the spec hold. -/
theorem parser_failure_kinds :
    (∀ (fetch : String → List (String × CEntry)) (doi : String),
      doiMatchStart doi = false → from_doi fetch doi = .assertionFailure) ∧
    (∀ (fetch : String → List (String × CEntry)) (abspath : String → String)
        (order : List String) (text path : String),
      doiFindAll text = [] → isSetOrder (doiFindAll text) order →
      from_pdf fetch abspath order text path = .valueError) ∧
    doiMatchStart "10.1000/xyz123" = true ∧
    doiMatchStart "not-a-doi" = false := by
  refine ⟨?_, ?_, by decide, by decide⟩
  · intro fetch doi h
    simp [from_doi, h]
  · intro fetch abspath order text path h hord
    have hperm : List.Perm order (firstDedup (doiFindAll text)) := hord
    rw [h] at hperm
    have hnil : order = [] := hperm.eq_nil
    subst hnil
    rw [from_pdf, h]
    rfl

/-- C4 amended, witness. -/
theorem parser_failure_kinds_witness :
    from_doi (fun _ => []) "abc" = .assertionFailure ∧
    from_pdf (fun _ => []) (fun p => p) [] "no digital object identifier" "b.pdf"
      = .valueError :=
  ⟨parser_failure_kinds.1 (fun _ => []) "abc" (by decide),
   parser_failure_kinds.2.1 (fun _ => []) (fun p => p) [] "no digital object identifier"
     "b.pdf" (by decide) (by decide)⟩

/-- C8 counterexample: on a text holding two distinct DOIs once each, the
order [10.2/b, 10.1/a] is a valid iteration order of the Python set of
matches, and under it most_common selects 10.2/b, while the claimed
first-encountered tie-break selects 10.1/a: the selection is not
deterministic in the text order because max ranges over set(lst), whose
string iteration order is hash-dependent. -/
theorem pdf_tiebreak_cex :
    doiFindAll "10.1/a 10.2/b" = ["10.1/a", "10.2/b"] ∧
    isSetOrder (doiFindAll "10.1/a 10.2/b") ["10.2/b", "10.1/a"] ∧
    most_common ["10.2/b", "10.1/a"] (doiFindAll "10.1/a 10.2/b") = some "10.2/b" ∧
    claimedMostCommon (doiFindAll "10.1/a 10.2/b") = some "10.1/a" ∧
    most_common ["10.2/b", "10.1/a"] (doiFindAll "10.1/a 10.2/b") ≠
      claimedMostCommon (doiFindAll "10.1/a 10.2/b") := by
  refine ⟨by decide, by decide, by decide, by decide, by decide⟩

/-- C8 amended: under any valid iteration order of the set of matches,
most_common returns a match of maximal frequency (ties resolved by the set
iteration order, not necessarily first encountered), and every entry of a
successful from_pdf result has its file field overwritten with the resolved
path of the pdf. -/
theorem pdf_most_common_characterization :
    (∀ (lst order : List String), isSetOrder lst order → lst ≠ [] →
      ∃ m, most_common order lst = some m ∧ m ∈ lst ∧
        ∀ x ∈ lst, lst.count x ≤ lst.count m) ∧
    (∀ (fetch : String → List (String × CEntry)) (abspath : String → String)
        (order : List String) (text path : String) (bib : List (String × CEntry)),
      from_pdf fetch abspath order text path = .entries bib →
      ∀ kv ∈ bib, kv.2.data.lookup "file" = some (abspath path)) := by
  constructor
  · intro lst order hord hne
    have hperm : List.Perm order (firstDedup lst) := hord
    cases order with
    | nil =>
      exfalso
      cases lst with
      | nil => exact hne rfl
      | cons z zs =>
        have hz : z ∈ firstDedup (z :: zs) :=
          (mem_firstDedup _ _).mpr (List.mem_cons_self _ _)
        have h2 : z ∈ ([] : List String) := hperm.mem_iff.mpr hz
        simp at h2
    | cons x xs =>
      obtain ⟨m, hm, hmem, hbound⟩ := pyMax_spec (fun t => lst.count t) x xs
      refine ⟨m, hm, ?_, ?_⟩
      · exact (mem_firstDedup _ _).mp (hperm.mem_iff.mp hmem)
      · intro z hz
        exact hbound z (hperm.mem_iff.mpr ((mem_firstDedup _ _).mpr hz))
  · intro fetch abspath order text path bib h
    cases hmc : most_common order (doiFindAll text) with
    | none =>
      have key : from_pdf fetch abspath order text path = ParseOutcome.valueError := by
        simp [from_pdf, hmc]
      rw [key] at h
      simp at h
    | some doi =>
      by_cases hd : doiMatchStart doi = true
      · have key : from_pdf fetch abspath order text path =
            ParseOutcome.entries ((fetch doi).map
              (fun kv => (kv.1, CEntry.set_file abspath kv.2 path))) := by
          simp [from_pdf, from_doi, hmc, hd]
        rw [key] at h
        simp only [ParseOutcome.entries.injEq] at h
        intro kv hkv
        rw [← h] at hkv
        obtain ⟨kv0, hkv0, rfl⟩ := List.mem_map.mp hkv
        show (CEntry.set_file abspath kv0.2 path).data.lookup "file" = some (abspath path)
        rw [CEntry.set_file]
        exact lookup_assocSet _ _ _
      · have key : from_pdf fetch abspath order text path = ParseOutcome.assertionFailure := by
          simp [from_pdf, from_doi, hmc, hd]
        rw [key] at h
        simp at h

/-- C8 amended, witness. -/
theorem pdf_most_common_characterization_witness :
    ∃ m, most_common ["u"] ["u", "u"] = some m ∧ m ∈ ["u", "u"] ∧
      ∀ x ∈ ["u", "u"], List.count x ["u", "u"] ≤ List.count m ["u", "u"] :=
  pdf_most_common_characterization.1 ["u", "u"] ["u"] (by decide) (by decide)

theorem intercalate_cons_cons2 (sep u v : List Char) (ws : List (List Char)) :
    List.intercalate sep (u :: v :: ws) = u ++ sep ++ List.intercalate sep (v :: ws) := by
  simp [List.intercalate, List.flatten_cons, List.append_assoc]

theorem flatten_map_append (sep : List Char) (us : List (List Char)) (h : us ≠ []) :
    List.flatten (us.map (· ++ sep)) = List.intercalate sep us ++ sep := by
  induction us with
  | nil => exact absurd rfl h
  | cons u vs ih =>
    cases vs with
    | nil => simp [List.intercalate]
    | cons v ws =>
      rw [List.map_cons, List.flatten_cons, ih (by simp), intercalate_cons_cons2]
      simp [List.append_assoc]

theorem getLast?_intercalate (sep : List Char) (us : List (List Char)) (u : List Char)
    (hlast : us.getLast? = some u) (hu : u ≠ []) :
    (List.intercalate sep us).getLast? = u.getLast? := by
  induction us with
  | nil => simp at hlast
  | cons w vs ih =>
    cases vs with
    | nil =>
      rw [List.getLast?_singleton, Option.some.injEq] at hlast
      subst hlast
      simp [List.intercalate]
    | cons v ws =>
      rw [List.getLast?_cons_cons] at hlast
      have htail := ih hlast
      rw [intercalate_cons_cons2]
      have hne : List.intercalate sep (v :: ws) ≠ [] := by
        intro hnil
        rw [hnil] at htail
        simp at htail
        exact hu (List.getLast?_eq_none_iff.mp htail.symm)
      rw [List.getLast?_append_of_ne_nil _ hne]
      exact htail

theorem head?_intercalate (sep u : List Char) (us : List (List Char)) (hu : u ≠ []) :
    (List.intercalate sep (u :: us)).head? = u.head? := by
  cases us with
  | nil => simp [List.intercalate]
  | cons v ws =>
    rw [intercalate_cons_cons2, List.append_assoc]
    exact List.head?_append_of_ne_nil u hu

theorem pyStripL_intercalate_append (us : List (List Char)) (hne : us ≠ [])
    (h : ∀ u ∈ us, u ≠ [] ∧ u.head? ≠ some ',' ∧ u.head? ≠ some ' ' ∧
      u.getLast? ≠ some ',' ∧ u.getLast? ≠ some ' ') :
    pyStripL [',', ' '] (List.intercalate [',', ' '] us ++ [',', ' ']) =
      List.intercalate [',', ' '] us := by
  cases us with
  | nil => exact absurd rfl hne
  | cons u ts =>
    obtain ⟨hu, hh1, hh2, _, _⟩ := h u (List.mem_cons_self u ts)
    obtain ⟨c, hc⟩ : ∃ c, u.head? = some c := by
      cases hft : u.head? with
      | none => exact absurd (List.head?_eq_none_iff.mp hft) hu
      | some c => exact ⟨c, rfl⟩
    have hint : (List.intercalate [',', ' '] (u :: ts)).head? = some c := by
      rw [head?_intercalate _ _ _ hu]
      exact hc
    have hintne : List.intercalate [',', ' '] (u :: ts) ≠ [] := by
      intro hnil
      rw [hnil] at hint
      simp at hint
    obtain ⟨w, hw⟩ : ∃ w, (u :: ts).getLast? = some w := by
      cases hl : (u :: ts).getLast? with
      | none => exact absurd (List.getLast?_eq_none_iff.mp hl) (by simp)
      | some w => exact ⟨w, rfl⟩
    obtain ⟨hwne, _, _, hl1, hl2⟩ := h w (List.mem_of_getLast?_eq_some hw)
    obtain ⟨d, hd⟩ : ∃ d, w.getLast? = some d := by
      cases hg : w.getLast? with
      | none => exact absurd (List.getLast?_eq_none_iff.mp hg) hwne
      | some d => exact ⟨d, rfl⟩
    have hlastint : (List.intercalate [',', ' '] (u :: ts)).getLast? = some d := by
      rw [getLast?_intercalate _ _ w hw hwne]
      exact hd
    have hcP : (fun x => decide (x ∈ [',', ' '])) c = false := by
      have h1 : c ≠ ',' := fun hh => hh1 (by rw [hc, hh])
      have h2 : c ≠ ' ' := fun hh => hh2 (by rw [hc, hh])
      simp [h1, h2]
    have hdP : (fun x => decide (x ∈ [',', ' '])) d = false := by
      have h1 : d ≠ ',' := fun hh => hl1 (by rw [hd, hh])
      have h2 : d ≠ ' ' := fun hh => hl2 (by rw [hd, hh])
      simp [h1, h2]
    have hhead : (List.intercalate [',', ' '] (u :: ts) ++ [',', ' ']).head? = some c := by
      rw [List.head?_append_of_ne_nil _ hintne]
      exact hint
    rw [pyStripL]
    rw [dropWhile_head_false hhead hcP]
    rw [List.reverse_append]
    rw [dropWhile_append_all ([',', ' '].reverse) (([',', ' '].intercalate (u :: ts)).reverse)
      (by decide)]
    rw [dropWhile_head_false (by rw [List.head?_reverse]; exact hlastint) hdP]
    rw [List.reverse_reverse]

/-- C9 counterexample: set_tags does not store the comma-with-space joined
sequence of the trimmed tokens with leading plus characters stripped: a
token with trailing whitespace keeps it when it is not the last token
(strip is only applied to the whole joined string), and a trailing plus
character is stripped as well because str.strip removes the character from
both ends, not only the front. -/
theorem set_tags_not_plain_join :
    set_tags_value ["b ", "a"] = "b , a" ∧
    set_tags_claimed ["b ", "a"] = "b, a" ∧
    set_tags_value ["a+"] = "a" ∧
    set_tags_claimed ["a+"] = "a+" := by
  refine ⟨by decide, by decide, by decide, by decide⟩

/-- C9 amended: set_tags strips plus characters from both ends of each
token (without trimming whitespace), joins the results with a comma and a
blank, and strips commas and blanks from both ends of the joined string;
for tokens whose plus-stripped form is nonempty and neither starts nor ends
with a comma or a blank this equals the comma-with-space join of the
stripped tokens, and on the spec example it yields the claimed value. -/
theorem set_tags_characterization :
    (∀ tags : List String,
      (∀ t ∈ tags, pyStripL ['+'] t.toList ≠ [] ∧
        (pyStripL ['+'] t.toList).head? ≠ some ',' ∧
        (pyStripL ['+'] t.toList).head? ≠ some ' ' ∧
        (pyStripL ['+'] t.toList).getLast? ≠ some ',' ∧
        (pyStripL ['+'] t.toList).getLast? ≠ some ' ') →
      set_tags_chars tags =
        List.intercalate [',', ' '] (tags.map (fun t => pyStripL ['+'] t.toList))) ∧
    set_tags_value ["+a", "b "] = "a, b" := by
  refine ⟨?_, by decide⟩
  intro tags h
  cases tags with
  | nil => rfl
  | cons t ts =>
    rw [set_tags_chars]
    have hmap : (t :: ts).map (fun tag => pyStripL ['+'] tag.toList ++ [',', ' ']) =
        ((t :: ts).map (fun tag => pyStripL ['+'] tag.toList)).map (· ++ [',', ' ']) := by
      rw [List.map_map]
      rfl
    rw [hmap, flatten_map_append _ _ (by simp)]
    apply pyStripL_intercalate_append _ (by simp)
    intro u hu
    obtain ⟨t2, ht2, rfl⟩ := List.mem_map.mp hu
    exact h t2 ht2

/-- C9 amended, witness. -/
theorem set_tags_characterization_witness :
    set_tags_chars ["x", "y"] =
      List.intercalate [',', ' '] (["x", "y"].map (fun t => pyStripL ['+'] t.toList)) :=
  set_tags_characterization.1 ["x", "y"] (by decide)

theorem splitCS_roundtrip (k v : List Char) (hk : (':') ∉ k) :
    splitCS (k ++ ':' :: ' ' :: v) = some (k, v) := by
  induction k with
  | nil =>
    rw [List.nil_append, splitCS]
    rw [if_pos ⟨rfl, rfl⟩]
    rfl
  | cons c cs ih =>
    have hc : ¬ c = ':' := fun hh => hk (hh ▸ List.mem_cons_self c cs)
    rw [List.cons_append, splitCS]
    rw [if_neg (fun hand => hc hand.1)]
    rw [ih (fun hm => hk (List.mem_cons_of_mem c hm))]
    rfl

theorem parseField_fieldLine (kv : String × String) (hk : (':') ∉ kv.1.toList) :
    parseField (fieldLine kv) = some kv := by
  rw [fieldLine, parseField]
  rw [if_pos (show twoSpace (' ' :: ' ' :: (kv.1.toList ++ ':' :: ' ' :: kv.2.toList)) = true
    from by rw [twoSpace]; rfl)]
  rw [show (' ' :: ' ' :: (kv.1.toList ++ ':' :: ' ' :: kv.2.toList)).drop 2 =
    kv.1.toList ++ ':' :: ' ' :: kv.2.toList from rfl]
  rw [splitCS_roundtrip kv.1.toList kv.2.toList hk]
  rfl

theorem fieldLine_not_special (kv : String × String) :
    ¬ (fieldLine kv = ['-', '-', '-'] ∨ fieldLine kv = ['.', '.', '.'] ∨ fieldLine kv = []) := by
  rw [fieldLine]
  rintro (h | h | h) <;> simp at h

theorem parseDocs_fieldLines (l : String) (fs ds : List (String × String))
    (h : ∀ kv ∈ ds, (':') ∉ kv.1.toList) :
    parseDocs (some (l, fs)) (ds.map fieldLine ++ [['.', '.', '.']]) = [(l, fs ++ ds)] := by
  induction ds generalizing fs with
  | nil =>
    rw [List.map_nil, List.nil_append, List.append_nil]
    rfl
  | cons kv ds ih =>
    have hstep : parseDocs (some (l, fs))
        (fieldLine kv :: (ds.map fieldLine ++ [['.', '.', '.']])) =
        parseDocs (some (l, fs ++ [kv])) (ds.map fieldLine ++ [['.', '.', '.']]) := by
      rw [parseDocs.eq_def]
      simp only [fieldLine_not_special kv,
        parseField_fieldLine kv (h kv (List.mem_cons_self kv ds))]
      simp
    rw [List.map_cons, List.cons_append, hstep,
      ih (fs ++ [kv]) (fun kv2 hkv2 => h kv2 (List.mem_cons_of_mem kv hkv2)),
      List.append_assoc]
    rfl

theorem twoSpace_append_colon (cs : List Char) (h : twoSpace cs = false) :
    twoSpace (cs ++ [':']) = false := by
  cases cs with
  | nil => rfl
  | cons c1 rest =>
    cases rest with
    | nil =>
      show twoSpace [c1, ':'] = false
      rw [twoSpace]
      simp
    | cons c2 rest2 =>
      rw [List.cons_append, List.cons_append]
      rw [twoSpace] at h ⊢
      exact h

theorem label_line_reads_back (cs : List Char) :
    lineLabel (cs ++ [':']) = some (String.mk cs) := by
  rw [lineLabel]
  rw [if_pos (List.getLast?_concat cs)]
  rw [show (cs ++ [':']).dropLast = cs from by simp]

theorem label_line_not_special (cs : List Char) :
    ¬ (cs ++ [':'] = ['-', '-', '-'] ∨ cs ++ [':'] = ['.', '.', '.'] ∨ cs ++ [':'] = []) := by
  rintro (h | h | h)
  · have h2 := List.getLast?_concat cs (a := ':')
    rw [h] at h2
    simp at h2
  · have h2 := List.getLast?_concat cs (a := ':')
    rw [h] at h2
    simp at h2
  · simp at h

theorem parseField_of_not_twoSpace (l : List Char) (h : twoSpace l = false) :
    parseField l = none := by
  rw [parseField, if_neg]
  rw [h]
  exact Bool.false_ne_true

/-- C7: for every Entry whose label does not begin with the two-blank field
indentation and whose field names contain no colon (the plain scalars the
emitter produces), parsing the emitted YAML block back yields a batch of
exactly one Entry equal to the original in both label and field mapping. -/
theorem to_from_yaml_roundtrip (e : CEntry)
    (hlab : twoSpace e.label.toList = false)
    (hkeys : ∀ kv ∈ e.data, (':') ∉ kv.1.toList) :
    from_yaml (to_yaml e) = [(e.label, e)] := by
  rw [from_yaml, to_yaml, List.cons_append, List.cons_append]
  have hsep : parseDocs none (['-', '-', '-'] :: (e.label.toList ++ [':']) ::
      (e.data.map fieldLine ++ [['.', '.', '.']])) =
      parseDocs none ((e.label.toList ++ [':']) :: (e.data.map fieldLine ++
        [['.', '.', '.']])) := by
    rw [parseDocs.eq_def]
    simp
  have hlab2 : parseDocs none ((e.label.toList ++ [':']) :: (e.data.map fieldLine ++
      [['.', '.', '.']])) =
      parseDocs (some (String.mk e.label.toList, []))
        (e.data.map fieldLine ++ [['.', '.', '.']]) := by
    rw [parseDocs.eq_def]
    simp only [label_line_not_special e.label.toList,
      parseField_of_not_twoSpace _ (twoSpace_append_colon _ hlab),
      label_line_reads_back]
    simp
  rw [hsep, hlab2, parseDocs_fieldLines _ [] e.data hkeys]
  rfl

/-- C7 witness: the round trip on the entry pinned by test_add_new_entry. -/
theorem to_from_yaml_roundtrip_witness :
    from_yaml (to_yaml ⟨"dummy", [("ID", "dummy"), ("ENTRYTYPE", "article")]⟩) =
      [("dummy", ⟨"dummy", [("ID", "dummy"), ("ENTRYTYPE", "article")]⟩)] :=
  to_from_yaml_roundtrip ⟨"dummy", [("ID", "dummy"), ("ENTRYTYPE", "article")]⟩
    (by decide) (by decide)
